import Mathlib

/-!
Verification development for the book-generator engine
(source: src/book_generator.py).

We shallowly embed the pure logic of the generator in Lean:

* the color sampler (color_from_image, text_color_for_image), with the
  decoded 64x64 mean channel values modelled as an optional triple of
  rationals (decoding failure = none);
* the font-size fitting loop (create_fitting_paragraph), with the
  rendered height of the composed paragraph at a given font size
  modelled as an arbitrary function from integer sizes to rational
  heights (para.wrap is an opaque measurement from the embedding's
  point of view);
* the pagination of build_inner_book, modelled at the flowable level:
  the story list that build_inner_book assembles, and the pages that
  result from honouring each PageBreak flowable;
* the sentence/paragraph HTML composition of build_inner_book
  (split_into_sentences and the "\n\n" / "<br/><br/>" joins);
* the filename sort key of load_image_paths and the resulting order;
* the geometry normalisation of merge_preface_and_book and
  _set_all_boxes over an explicit five-box page model, with content
  transformations recorded as a list of (scale, dx, dy) records.

All numeric quantities are rationals; the Python floats involved in the
verified claims are exact in the inputs considered (page sizes such as
8.625 * 72 = 621 are dyadic, channel means are sums of integers divided
by 4096), so the rational model agrees with the float execution on them.
-/

namespace BookGen

/-! ## Color sampler: color_from_image and text_color_for_image

The decoded image is modelled by the mean channel triple (r, g, b) that
PIL's ImageStat.Stat reports for the 64x64 downsampled RGB image; a
decode error is modelled by none.
-/

inductive TextColor where
  | white
  | black
deriving DecidableEq

/-- Embeds color_from_image (src lines 55-65): on a successful decode
the mean channel triple is turned into a fill color with channels
divided by 255; on a decode error the function returns None (no fill). -/
def color_from_image (decoded : Option (ℚ × ℚ × ℚ)) : Option (ℚ × ℚ × ℚ) :=
  match decoded with
  | none => none
  | some (r, g, b) => some (r / 255, g / 255, b / 255)

/-- The luminance computed by text_color_for_image (src line 74):
lum = (0.299 * r + 0.587 * g + 0.114 * b) / 255. -/
def luminance (r g b : ℚ) : ℚ :=
  (299 / 1000 * r + 587 / 1000 * g + 114 / 1000 * b) / 255

/-- Embeds text_color_for_image (src lines 68-83): white if the
luminance of the decoded mean is strictly below the threshold
(default 0.5 at the call sites), black otherwise; black on a decode
error. -/
def text_color_for_image (decoded : Option (ℚ × ℚ × ℚ)) (threshold : ℚ) : TextColor :=
  match decoded with
  | none => TextColor.black
  | some (r, g, b) =>
      if luminance r g b < threshold then TextColor.white else TextColor.black

/-! ## Text fitter: create_fitting_paragraph

The source loop (lines 144-169) tries font sizes base, base - 1, ...
down to min_font_size, returning the first size whose wrapped height
fits max_height, and (last_para, min_font_size) if none fits, where
last_para is the most recently built paragraph (None when the loop
body never ran, i.e. base < min).

Sizes are Python ints, modelled as ℤ.  The loop runs exactly
(base + 1 - min).toNat iterations, so we re-index it by the number of
remaining iterations: at fuel k + 1 the size under trial is min + k.
A paragraph object is represented by the font size it was built with.
-/

def fitLoop (height : ℤ → ℚ) (maxH : ℚ) (minfs : ℤ) (last : Option ℤ) :
    ℕ → Option ℤ × ℤ
  | 0 => (last, minfs)
  | k + 1 =>
      let size : ℤ := minfs + k
      if height size ≤ maxH then (some size, size)
      else fitLoop height maxH minfs (some size) k

/-- Embeds create_fitting_paragraph (src lines 144-169): first
component is the returned paragraph (the size it was built with, none
when the loop never ran), second component the returned size. -/
def create_fitting_paragraph (height : ℤ → ℚ) (maxH : ℚ)
    (base_font_size min_font_size : ℤ) : Option ℤ × ℤ :=
  fitLoop height maxH min_font_size none (base_font_size + 1 - min_font_size).toNat

/-- Body pages are fitted with the fixed floor 5 (src line 312), and
build_inner_book then calls para.wrap unconditionally (src line 315),
which raises if the paragraph is None: assembly of a body page fails
exactly when the fitter returned a None paragraph. -/
def body_page_assembly_fails (height : ℤ → ℚ) (maxH : ℚ) (font_size : ℤ) : Bool :=
  ((create_fitting_paragraph height maxH font_size 5).1).isNone

/-! ### Fitter lemmas -/

lemma fitLoop_spec (height : ℤ → ℚ) (maxH : ℚ) (minfs : ℤ) :
    ∀ (k : ℕ) (last : Option ℤ),
      minfs ≤ (fitLoop height maxH minfs last k).2 ∧
      ((fitLoop height maxH minfs last k).2 < minfs + k ∨
        (fitLoop height maxH minfs last k).2 = minfs) ∧
      (∀ t : ℤ, (fitLoop height maxH minfs last k).2 < t → t < minfs + k →
        ¬ height t ≤ maxH) ∧
      (height (fitLoop height maxH minfs last k).2 ≤ maxH ∨
        ((fitLoop height maxH minfs last k).2 = minfs ∧
          (k = 0 ∨ ¬ height minfs ≤ maxH))) := by
  intro k
  induction k with
  | zero =>
      intro last
      refine ⟨le_refl _, Or.inr rfl, ?_, Or.inr ⟨rfl, Or.inl rfl⟩⟩
      intro t ht1 ht2
      exfalso
      simp only [fitLoop] at ht1 ht2
      omega
  | succ k ih =>
      intro last
      by_cases hfit : height (minfs + (k : ℤ)) ≤ maxH
      · simp only [fitLoop, if_pos hfit]
        refine ⟨by omega, by push_cast; omega, ?_, Or.inl hfit⟩
        intro t ht1 ht2
        exfalso
        push_cast at ht1 ht2
        omega
      · simp only [fitLoop, if_neg hfit]
        obtain ⟨h1, h2, h3, h4⟩ := ih (some (minfs + (k : ℤ)))
        refine ⟨h1, by push_cast; omega, ?_, ?_⟩
        · intro t ht1 ht2
          by_cases htk : t < minfs + (k : ℤ)
          · exact h3 t ht1 htk
          · have ht : t = minfs + (k : ℤ) := by push_cast at ht2; omega
            rw [ht]; exact hfit
        · rcases h4 with h4 | ⟨h4, h5⟩
          · exact Or.inl h4
          · rcases h5 with h5 | h5
            · refine Or.inr ⟨h4, Or.inr ?_⟩
              subst h5
              simpa using hfit
            · exact Or.inr ⟨h4, Or.inr h5⟩

lemma fitLoop_fst_isSome_of_last (height : ℤ → ℚ) (maxH : ℚ) (minfs : ℤ) :
    ∀ (k : ℕ) (last : Option ℤ), last.isSome →
      ((fitLoop height maxH minfs last k).1).isSome := by
  intro k
  induction k with
  | zero => intro last h; simpa [fitLoop] using h
  | succ k ih =>
      intro last h
      by_cases hfit : height (minfs + (k : ℤ)) ≤ maxH
      · simp [fitLoop, if_pos hfit]
      · simp only [fitLoop, if_neg hfit]
        exact ih (some (minfs + (k : ℤ))) rfl

lemma fitLoop_fst_isSome (height : ℤ → ℚ) (maxH : ℚ) (minfs : ℤ) :
    ∀ (k : ℕ) (last : Option ℤ), ((fitLoop height maxH minfs last (k + 1)).1).isSome := by
  intro k last
  by_cases hfit : height (minfs + (k : ℤ)) ≤ maxH
  · simp [fitLoop, if_pos hfit]
  · simp only [fitLoop, if_neg hfit]
    exact fitLoop_fst_isSome_of_last height maxH minfs k (some (minfs + (k : ℤ))) rfl

/-! ## Claim theorems for the color sampler and the fitter -/

/-- C6: text_color_for_image computes the luminance
L = (0.299 R + 0.587 G + 0.114 B) / 255 of the decoded mean color and
returns white exactly when L is strictly below the threshold 0.5 and
black otherwise; a pure-black mean yields white text, a pure-white mean
yields black text, and a mean at luminance exactly 0.5 yields black
text. -/
theorem text_color_threshold (r g b : ℚ) :
    (text_color_for_image (some (r, g, b)) (1 / 2) = TextColor.white ↔
      luminance r g b < 1 / 2) ∧
    (luminance r g b = 1 / 2 → text_color_for_image (some (r, g, b)) (1 / 2) = TextColor.black) ∧
    text_color_for_image (some (0, 0, 0)) (1 / 2) = TextColor.white ∧
    text_color_for_image (some (255, 255, 255)) (1 / 2) = TextColor.black := by
  have hdef : ∀ x y z : ℚ, text_color_for_image (some (x, y, z)) (1 / 2) =
      if luminance x y z < 1 / 2 then TextColor.white else TextColor.black :=
    fun _ _ _ => rfl
  refine ⟨?_, ?_, ?_, ?_⟩
  · rw [hdef]
    split_ifs with h
    · exact iff_of_true rfl h
    · exact iff_of_false (by decide) h
  · intro h
    rw [hdef, if_neg (by rw [h]; exact lt_irrefl _)]
  · rw [hdef, if_pos (by norm_num [luminance])]
  · rw [hdef, if_neg (by norm_num [luminance])]

/-- Witness for C6: the theorem applied at the mid-gray mean 255/2 per
channel, whose luminance is exactly 1/2, hence black text. -/
theorem text_color_threshold_witness :
    text_color_for_image (some (255 / 2, 255 / 2, 255 / 2)) (1 / 2) = TextColor.black :=
  (text_color_threshold (255 / 2) (255 / 2) (255 / 2)).2.1 (by norm_num [luminance])

/-- C7: a decode error (modelled as a none decoding result) is
non-fatal: color_from_image returns the no-fill value none, so the
background wash is skipped, and text_color_for_image returns black,
for every threshold. -/
theorem decode_error_nonfatal :
    color_from_image none = none ∧
    ∀ threshold : ℚ, text_color_for_image none threshold = TextColor.black := by
  exact ⟨rfl, fun _ => rfl⟩

/-- C5: whenever min_font_size ≤ base_font_size, the size returned by
create_fitting_paragraph lies in [min_font_size, base_font_size]; if
some size in that range fits (wrapped height at most max_height) then
the returned size fits and is the largest fitting size in the range;
if no size in the range fits the returned size is min_font_size; and
if base_font_size already fits, the returned size is exactly
base_font_size. -/
theorem fitting_size_correct (height : ℤ → ℚ) (maxH : ℚ) (base minfs : ℤ)
    (hmb : minfs ≤ base) :
    (minfs ≤ (create_fitting_paragraph height maxH base minfs).2 ∧
      (create_fitting_paragraph height maxH base minfs).2 ≤ base) ∧
    ((∃ t : ℤ, minfs ≤ t ∧ t ≤ base ∧ height t ≤ maxH) →
      height (create_fitting_paragraph height maxH base minfs).2 ≤ maxH ∧
      ∀ t : ℤ, minfs ≤ t → t ≤ base → height t ≤ maxH →
        t ≤ (create_fitting_paragraph height maxH base minfs).2) ∧
    ((∀ t : ℤ, minfs ≤ t → t ≤ base → ¬ height t ≤ maxH) →
      (create_fitting_paragraph height maxH base minfs).2 = minfs) ∧
    (height base ≤ maxH → (create_fitting_paragraph height maxH base minfs).2 = base) := by
  simp only [create_fitting_paragraph]
  have hk : (minfs : ℤ) + ((base + 1 - minfs).toNat : ℤ) = base + 1 := by omega
  obtain ⟨h1, h2, h3, h4⟩ :=
    fitLoop_spec height maxH minfs (base + 1 - minfs).toNat none
  rw [hk] at h2 h3
  set s := (fitLoop height maxH minfs none (base + 1 - minfs).toNat).2 with hs
  have hk0 : (base + 1 - minfs).toNat ≠ 0 := by omega
  have hfit_or : height s ≤ maxH ∨ (s = minfs ∧ ¬ height minfs ≤ maxH) := by
    rcases h4 with h | ⟨ha, hb⟩
    · exact Or.inl h
    · rcases hb with hb | hb
      · exact absurd hb hk0
      · exact Or.inr ⟨ha, hb⟩
  have hsle : s ≤ base := by omega
  refine ⟨⟨h1, hsle⟩, ?_, ?_, ?_⟩
  · rintro ⟨t, htm, htb, htfit⟩
    have hsfit : height s ≤ maxH := by
      rcases hfit_or with h | ⟨ha, hb⟩
      · exact h
      · by_cases hts : t ≤ s
        · have : t = minfs := by omega
          rw [this] at htfit
          exact absurd htfit hb
        · exact absurd htfit (h3 t (by omega) (by omega))
    refine ⟨hsfit, ?_⟩
    intro u hum hub hufit
    by_contra hc
    exact h3 u (by omega) (by omega) hufit
  · intro hnone
    rcases hfit_or with h | ⟨ha, _⟩
    · exact absurd h (hnone s h1 hsle)
    · exact ha
  · intro hbase
    by_contra hc
    exact h3 base (by omega) (by omega) hbase

/-- Witness for C5: with the height function that is 3 at sizes up to 6
and 10 above, max height 4, base 8 and minimum 5, the fitter returns
size 6, which fits and is maximal among fitting sizes in [5, 8]. -/
def exHeight (t : ℤ) : ℚ := if t ≤ 6 then 3 else 10

theorem fitting_size_correct_witness :
    (5 ≤ (create_fitting_paragraph exHeight 4 8 5).2 ∧
      (create_fitting_paragraph exHeight 4 8 5).2 ≤ 8) ∧
    (create_fitting_paragraph exHeight 4 8 5).2 = 6 ∧
    (∀ t : ℤ, 5 ≤ t → t ≤ 8 → exHeight t ≤ 4 →
      t ≤ (create_fitting_paragraph exHeight 4 8 5).2) := by
  have h := fitting_size_correct exHeight 4 8 5 (by norm_num)
  have hval : (create_fitting_paragraph exHeight 4 8 5).2 = 6 := by
    norm_num [create_fitting_paragraph, fitLoop, exHeight]
  refine ⟨h.1, hval, ?_⟩
  have hex : ∃ t : ℤ, 5 ≤ t ∧ t ≤ 8 ∧ exHeight t ≤ 4 :=
    ⟨6, by norm_num, by norm_num, by norm_num [exHeight]⟩
  exact (h.2.1 hex).2

/-- C10: create_fitting_paragraph returns a None paragraph exactly when
min_font_size exceeds base_font_size (the fitting loop never runs), and
a non-None paragraph whenever min_font_size ≤ base_font_size; since
build_inner_book fits body pages with the fixed floor 5 and then calls
para.wrap unconditionally, body-page assembly fails exactly when the
caller-supplied base font size is below 5. -/
theorem fitter_none_iff (height : ℤ → ℚ) (maxH : ℚ) (base minfs : ℤ) :
    ((create_fitting_paragraph height maxH base minfs).1 = none ↔ base < minfs) ∧
    (body_page_assembly_fails height maxH base = true ↔ base < 5) := by
  have main : ∀ m : ℤ, ((create_fitting_paragraph height maxH base m).1 = none ↔ base < m) := by
    intro m
    constructor
    · intro h
      by_contra hc
      have hk : ∃ k : ℕ, (base + 1 - m).toNat = k + 1 := by
        refine ⟨(base + 1 - m).toNat - 1, ?_⟩
        omega
      obtain ⟨k, hk⟩ := hk
      have := fitLoop_fst_isSome height maxH m k none
      rw [create_fitting_paragraph, hk] at h
      rw [h] at this
      simp at this
    · intro h
      have hk : (base + 1 - m).toNat = 0 := by omega
      rw [create_fitting_paragraph, hk]
      rfl
  refine ⟨main minfs, ?_⟩
  rw [body_page_assembly_fails, Option.isNone_iff_eq_none]
  exact main 5

/-! ## Geometry normaliser: _set_all_boxes and merge_preface_and_book

A page carries five box regions (media/crop/trim/bleed/art), each a
rectangle given by lower-left and upper-right corners, plus the list of
content transformations that have been applied to it (pypdf
add_transformation); a transformation is recorded as (scale, dx, dy)
for Transformation().scale(s, s).translate(dx, dy).  All lengths are in
PDF units (points); the source computes TARGET_W = page_width_inch * 72
and TARGET_H = page_height_inch * 72 with tolerance TOL = 1.
-/

structure Rect where
  ll : ℚ × ℚ
  ur : ℚ × ℚ
deriving DecidableEq

structure PageBoxes where
  mediabox : Rect
  cropbox : Rect
  trimbox : Rect
  bleedbox : Rect
  artbox : Rect
deriving DecidableEq

structure Page where
  boxes : PageBoxes
  transforms : List (ℚ × ℚ × ℚ)
deriving DecidableEq

def mkRect (w h : ℚ) : Rect := ⟨(0, 0), (w, h)⟩

/-- Embeds _set_all_boxes (src lines 337-343): every one of the five
box regions is forced to lower-left (0, 0) and upper-right (w, h). -/
def set_all_boxes (w h : ℚ) : PageBoxes :=
  ⟨mkRect w h, mkRect w h, mkRect w h, mkRect w h, mkRect w h⟩

def boxWidth (r : Rect) : ℚ := r.ur.1 - r.ll.1

def boxHeight (r : Rect) : ℚ := r.ur.2 - r.ll.2

def TOL : ℚ := 1

/-- Embeds the per-preface-page branch of merge_preface_and_book (src
lines 365-382): measure the mediabox; within tolerance of the target,
only re-stamp all five boxes to the target rectangle; otherwise compute
the uniform fit-within scale, the centering offsets, apply the content
transformation, and stamp all five boxes to the target rectangle (the
intermediate _set_all_boxes to the original size is overwritten by the
final stamping and only the content transformation survives). -/
def mergeFrontPage (TW TH : ℚ) (p : Page) : Page :=
  let w := boxWidth p.boxes.mediabox
  let h := boxHeight p.boxes.mediabox
  if |w - TW| ≤ TOL ∧ |h - TH| ≤ TOL then
    { boxes := set_all_boxes TW TH, transforms := p.transforms }
  else
    let scale := min (TW / w) (TH / h)
    let dx := (TW - w * scale) / 2
    let dy := (TH - h * scale) / 2
    { boxes := set_all_boxes TW TH, transforms := p.transforms ++ [(scale, dx, dy)] }

/-- Embeds the body-page branch of merge_preface_and_book (src lines
384-387): every body page only has its five boxes stamped to the
target rectangle and is never transformed. -/
def mergeBodyPage (TW TH : ℚ) (p : Page) : Page :=
  { boxes := set_all_boxes TW TH, transforms := p.transforms }

/-- Embeds merge_preface_and_book page assembly (src lines 362-387):
all preface pages, normalised, followed by all body pages, stamped. -/
def merge_preface_and_book (TW TH : ℚ) (preface body : List Page) : List Page :=
  preface.map (mergeFrontPage TW TH) ++ body.map (mergeBodyPage TW TH)

/-! ## Claim theorems for the merger -/

/-- C3 counterexample: at the default target 621 x 630 points
(8.625 x 8.75 inches), a front-matter page of size
(2 * targetW, targetH) = (1242, 630) is transformed with uniform scale
1/2 and offsets dx = 0, dy = 315/2, so the vertical offset of the
claim is not zero. -/
theorem merge_double_width_counterexample :
    mergeFrontPage 621 630 ⟨set_all_boxes (2 * 621) 630, []⟩ =
      ⟨set_all_boxes 621 630, [(1 / 2, 0, 315 / 2)]⟩ ∧
    (315 / 2 : ℚ) ≠ 0 := by
  constructor
  · have hcond : ¬ (|boxWidth (set_all_boxes (2 * 621) 630).mediabox - 621| ≤ TOL ∧
        |boxHeight (set_all_boxes (2 * 621) 630).mediabox - 630| ≤ TOL) := by
      norm_num [set_all_boxes, mkRect, boxWidth, boxHeight, TOL, abs_le]
    rw [mergeFrontPage, if_neg hcond]
    norm_num [set_all_boxes, mkRect, boxWidth, boxHeight]
  · norm_num

/-- C3 amended: for every target TW x TH with TW > 1 and TH > 0, a
front-matter page of size (2 * TW, TH) is transformed with uniform
scale 1/2, horizontal offset 0 and vertical offset TH / 4 (the content
is centered, which needs a non-zero vertical offset because the scaled
height is TH / 2), and all five resulting box regions are exactly the
target rectangle with lower-left at the origin. -/
theorem merge_double_width_page (TW TH : ℚ) (hW : 1 < TW) (hH : 0 < TH) (ts : List (ℚ × ℚ × ℚ)) :
    mergeFrontPage TW TH ⟨set_all_boxes (2 * TW) TH, ts⟩ =
      ⟨set_all_boxes TW TH, ts ++ [(1 / 2, 0, TH / 4)]⟩ := by
  have hW0 : TW ≠ 0 := by linarith
  have hH0 : TH ≠ 0 := by linarith
  have hcond : ¬ (|boxWidth (set_all_boxes (2 * TW) TH).mediabox - TW| ≤ TOL ∧
      |boxHeight (set_all_boxes (2 * TW) TH).mediabox - TH| ≤ TOL) := by
    simp only [set_all_boxes, mkRect, boxWidth, boxHeight, TOL, abs_le, not_and, not_le]
    intro h
    linarith [h.1, h.2]
  rw [mergeFrontPage, if_neg hcond]
  have hw : boxWidth (set_all_boxes (2 * TW) TH).mediabox = 2 * TW := by
    simp [set_all_boxes, mkRect, boxWidth]
  have hh : boxHeight (set_all_boxes (2 * TW) TH).mediabox = TH := by
    simp [set_all_boxes, mkRect, boxHeight]
  simp only [hw, hh]
  have hscale : min (TW / (2 * TW)) (TH / TH) = 1 / 2 := by
    rw [div_self hH0]
    rw [show TW / (2 * TW) = 1 / 2 by field_simp; ring]
    norm_num
  rw [hscale]
  have hdx : (TW - 2 * TW * (1 / 2)) / 2 = 0 := by ring
  have hdy : (TH - TH * (1 / 2)) / 2 = TH / 4 := by ring
  rw [hdx, hdy]

/-- Witness for C3 amended: the theorem applied at the default target
621 x 630, giving scale 1/2, dx = 0, dy = 630 / 4 = 315/2. -/
theorem merge_double_width_page_witness :
    mergeFrontPage 621 630 ⟨set_all_boxes (2 * 621) 630, []⟩ =
      ⟨set_all_boxes 621 630, [(1 / 2, 0, 630 / 4)]⟩ :=
  merge_double_width_page 621 630 (by norm_num) (by norm_num) []

/-- C8: a front-matter page whose mediabox width and height are both
within the 1-unit tolerance of the target receives no content
transformation, only the stamping of all five box regions to the exact
target rectangle at the origin; consequently the per-page merge
operations are idempotent: re-running the front-page normalisation or
the body-page stamping on any merged output changes nothing, and the
whole merge re-run on its own output is the identity on it. -/
theorem merge_idempotent_on_geometry (TW TH : ℚ) (p : Page) :
    (|boxWidth p.boxes.mediabox - TW| ≤ TOL → |boxHeight p.boxes.mediabox - TH| ≤ TOL →
      mergeFrontPage TW TH p = { boxes := set_all_boxes TW TH, transforms := p.transforms }) ∧
    mergeFrontPage TW TH (mergeFrontPage TW TH p) = mergeFrontPage TW TH p ∧
    mergeBodyPage TW TH (mergeFrontPage TW TH p) = mergeFrontPage TW TH p ∧
    ∀ front body : List Page,
      merge_preface_and_book TW TH (merge_preface_and_book TW TH front body) [] =
        merge_preface_and_book TW TH front body := by
  have hstamped : ∀ q : Page, q.boxes = set_all_boxes TW TH →
      mergeFrontPage TW TH q = q := by
    intro q hq
    have hcond : |boxWidth q.boxes.mediabox - TW| ≤ TOL ∧
        |boxHeight q.boxes.mediabox - TH| ≤ TOL := by
      rw [hq]
      constructor <;> simp [set_all_boxes, mkRect, boxWidth, boxHeight, TOL]
    rw [mergeFrontPage, if_pos hcond, ← hq]
  have hfront_boxes : ∀ q : Page, (mergeFrontPage TW TH q).boxes = set_all_boxes TW TH := by
    intro q
    rw [mergeFrontPage]
    split <;> rfl
  refine ⟨?_, ?_, ?_, ?_⟩
  · intro hw hh
    rw [mergeFrontPage, if_pos ⟨hw, hh⟩]
  · exact hstamped _ (hfront_boxes p)
  · rw [mergeBodyPage]
    cases hm : mergeFrontPage TW TH p with
    | mk b t =>
        have : b = set_all_boxes TW TH := by
          have := hfront_boxes p
          rw [hm] at this
          exact this
        rw [this]
  · intro front body
    simp only [merge_preface_and_book, List.map_nil, List.append_nil, List.map_append,
      List.map_map]
    congr 1
    · apply List.map_congr_left
      intro q _
      exact hstamped _ (hfront_boxes q)
    · apply List.map_congr_left
      intro q _
      exact hstamped _ rfl

/-- Witness for C8: the theorem applied at the default target 621 x 630
to a page already stamped to the target; both tolerance hypotheses hold
with slack 0 and the page is returned with its boxes re-stamped and its
transforms untouched. -/
theorem merge_idempotent_on_geometry_witness :
    mergeFrontPage 621 630 ⟨set_all_boxes 621 630, []⟩ =
      { boxes := set_all_boxes 621 630, transforms := [] } :=
  (merge_idempotent_on_geometry 621 630 ⟨set_all_boxes 621 630, []⟩).1
    (by norm_num [set_all_boxes, mkRect, boxWidth, TOL])
    (by norm_num [set_all_boxes, mkRect, boxHeight, TOL])

/-! ## Pagination of build_inner_book

build_inner_book assembles a flat story of flowables (src lines
258-331) and hands it to doc.build.  We model the flowables relevant
to pagination and the page structure that results from honouring each
PageBreak: a page is the list of flowables emitted before the break
that ends it, and flowables after the last break (there are none in
any story the builder produces) would form one final page.  Text pages
are fitted to the usable area and FullPageImage wraps to (0, 0), so no
implicit frame-overflow break occurs in this model.
-/

inductive Flowable where
  | spacer
  | titlePara
  | authorPara
  | textPara (i : ℕ)
  | fullPageImage (i : ℕ)
  | pageBreak
deriving DecidableEq

/-- The title/author flowables (src lines 263-282): top spacer, title
paragraph, then, when an author is present, an author gap spacer and
the author paragraph, then a page break. -/
def titleStory (hasAuthor : Bool) : List Flowable :=
  [Flowable.spacer, Flowable.titlePara] ++
    (if hasAuthor then [Flowable.spacer, Flowable.authorPara] else []) ++
    [Flowable.pageBreak]

/-- The flowables for manuscript page i out of M available images (src
lines 284-331): centring spacer, fitted text paragraph, page break,
then either the full-bleed image for index i followed by a page break
(when i < M: the loop consumes one image per page while any remain) or
a bare page break producing a blank partner page. -/
def pageStory (i M : ℕ) : List Flowable :=
  [Flowable.spacer, Flowable.textPara i, Flowable.pageBreak] ++
    (if i < M then [Flowable.fullPageImage i, Flowable.pageBreak] else [Flowable.pageBreak])

/-- The complete story built by build_inner_book for a manuscript with
N pages, M images, and the given title/author flags. -/
def buildStory (hasTitle hasAuthor : Bool) (N M : ℕ) : List Flowable :=
  (if hasTitle then titleStory hasAuthor else []) ++
    (List.range N).flatMap (fun i => pageStory i M)

/-- Splits a story into the pages doc.build emits: each PageBreak ends
the page collecting the flowables seen since the previous break, and a
trailing segment without a break forms a final page only when it is
non-empty. -/
def pagesAux (acc : List Flowable) : List Flowable → List (List Flowable)
  | [] => if acc = [] then [] else [acc.reverse]
  | f :: fs =>
      if f = Flowable.pageBreak then acc.reverse :: pagesAux [] fs
      else pagesAux (f :: acc) fs

def pagesOf (story : List Flowable) : List (List Flowable) := pagesAux [] story

/-- The contents of the title page. -/
def titlePage (hasAuthor : Bool) : List Flowable :=
  [Flowable.spacer, Flowable.titlePara] ++
    (if hasAuthor then [Flowable.spacer, Flowable.authorPara] else [])

/-- The contents of the text page for manuscript page i. -/
def textPage (i : ℕ) : List Flowable := [Flowable.spacer, Flowable.textPara i]

/-- The partner page that follows the text page for manuscript page i:
the full-bleed image when an image with index i exists, blank
otherwise. -/
def partnerPage (i M : ℕ) : List Flowable :=
  if i < M then [Flowable.fullPageImage i] else []

/-! ### Pagination lemmas -/

lemma pagesAux_append_no_break (seg : List Flowable) :
    ∀ (acc rest : List Flowable), Flowable.pageBreak ∉ seg →
      pagesAux acc (seg ++ rest) = pagesAux (seg.reverse ++ acc) rest := by
  induction seg with
  | nil => intro acc rest _; simp
  | cons f fs ih =>
      intro acc rest hmem
      have hf : f ≠ Flowable.pageBreak := fun h => hmem (h ▸ List.mem_cons_self f fs)
      have hfs : Flowable.pageBreak ∉ fs := fun h => hmem (List.mem_cons_of_mem f h)
      simp only [List.cons_append, List.append_eq, pagesAux, if_neg hf]
      rw [ih (f :: acc) rest hfs]
      simp

lemma pagesAux_break (acc rest : List Flowable) :
    pagesAux acc (Flowable.pageBreak :: rest) = acc.reverse :: pagesAux [] rest := by
  simp [pagesAux]

lemma pagesOf_chunk (seg rest : List Flowable) (h : Flowable.pageBreak ∉ seg) :
    pagesAux [] (seg ++ Flowable.pageBreak :: rest) = seg :: pagesAux [] rest := by
  rw [pagesAux_append_no_break seg [] (Flowable.pageBreak :: rest) h, pagesAux_break]
  simp

lemma pagesOf_pageStories (M : ℕ) :
    ∀ is : List ℕ,
      pagesAux [] (is.flatMap (fun i => pageStory i M)) =
        is.flatMap (fun i => [textPage i, partnerPage i M]) := by
  intro is
  induction is with
  | nil => simp [pagesAux]
  | cons i is ih =>
      simp only [List.flatMap_cons]
      by_cases hi : i < M
      · have h1 : pageStory i M ++ is.flatMap (fun j => pageStory j M) =
            [Flowable.spacer, Flowable.textPara i] ++ Flowable.pageBreak ::
              ([Flowable.fullPageImage i] ++ Flowable.pageBreak ::
                is.flatMap (fun j => pageStory j M)) := by
          simp [pageStory, if_pos hi]
        rw [h1, pagesOf_chunk _ _ (by simp), pagesOf_chunk _ _ (by simp), ih]
        simp [textPage, partnerPage, if_pos hi]
      · have h1 : pageStory i M ++ is.flatMap (fun j => pageStory j M) =
            [Flowable.spacer, Flowable.textPara i] ++ Flowable.pageBreak ::
              ([] ++ Flowable.pageBreak :: is.flatMap (fun j => pageStory j M)) := by
          simp [pageStory, if_neg hi]
        rw [h1, pagesOf_chunk _ _ (by simp), pagesOf_chunk _ _ (by simp), ih]
        simp [textPage, partnerPage, if_neg hi]

lemma pagesOf_buildStory (ht ha : Bool) (N M : ℕ) :
    pagesOf (buildStory ht ha N M) =
      (if ht then [titlePage ha] else []) ++
        (List.range N).flatMap (fun i => [textPage i, partnerPage i M]) := by
  cases ht with
  | false =>
      have hb : buildStory false ha N M = (List.range N).flatMap (fun i => pageStory i M) := by
        simp [buildStory]
      rw [pagesOf, hb, pagesOf_pageStories M (List.range N)]
      simp
  | true =>
      have hb : buildStory true ha N M =
          titlePage ha ++ Flowable.pageBreak ::
            (List.range N).flatMap (fun i => pageStory i M) := by
        cases ha <;> simp [buildStory, titleStory, titlePage]
      rw [pagesOf, hb, pagesOf_chunk _ _ (by cases ha <;> simp [titlePage]),
        pagesOf_pageStories M (List.range N)]
      simp

lemma flatMap_pair_length (M : ℕ) (is : List ℕ) :
    (is.flatMap (fun i => [textPage i, partnerPage i M])).length = 2 * is.length := by
  induction is with
  | nil => simp
  | cons i is ih => simp [ih]; ring

/-! ## Claim theorems for pagination -/

/-- C1: for every manuscript with N ≥ 1 pages and every image set of
size M, the body built by build_inner_book consists of exactly
(1 if a title is present else 0) + 2 * N pages: an optional title page
followed, for each manuscript page i in order, by its text page and an
image-or-blank partner page (the image for index i when i < M, blank
otherwise). -/
theorem body_page_structure (ht ha : Bool) (N M : ℕ) (hN : 1 ≤ N) :
    pagesOf (buildStory ht ha N M) =
      (if ht then [titlePage ha] else []) ++
        (List.range N).flatMap (fun i => [textPage i, partnerPage i M]) ∧
    (pagesOf (buildStory ht ha N M)).length = (if ht then 1 else 0) + 2 * N := by
  refine ⟨pagesOf_buildStory ht ha N M, ?_⟩
  rw [pagesOf_buildStory ht ha N M]
  rw [List.length_append, flatMap_pair_length M (List.range N), List.length_range]
  cases ht <;> simp

/-- Witness for C1: a titled two-page manuscript with one image yields
the title page, the first text page, the image partner page, the second
text page, and a blank partner page: five pages, 1 + 2 * 2. -/
theorem body_page_structure_witness :
    pagesOf (buildStory true true 2 1) =
      [titlePage true, textPage 0, partnerPage 0 1, textPage 1, partnerPage 1 1] ∧
    (pagesOf (buildStory true true 2 1)).length = 1 + 2 * 2 := by
  obtain ⟨h1, h2⟩ := body_page_structure true true 2 1 (by norm_num)
  constructor
  · rw [h1]; rfl
  · exact h2.trans (by norm_num)

/-- C2 counterexample: a titled manuscript with N = 1 page and one
image produces a body of 3 pages (title, text, image), not
2 + 2 * 1 = 4: the title and author share a single page. -/
theorem titled_page_count_counterexample :
    (pagesOf (buildStory true true 1 1)).length = 3 ∧ (3 : ℕ) ≠ 2 + 2 * 1 := by
  constructor
  · rfl
  · decide

/-- C2 amended: for every manuscript with N ≥ 1 pages, the body has
exactly 1 + 2 * N pages when a title is present (title and author
share one page) and 2 * N pages without a title. -/
theorem titled_page_count (ht ha : Bool) (N M : ℕ) (hN : 1 ≤ N) :
    (pagesOf (buildStory ht ha N M)).length = (if ht then 1 else 0) + 2 * N := by
  rw [pagesOf_buildStory ht ha N M]
  rw [List.length_append, flatMap_pair_length M (List.range N), List.length_range]
  cases ht <;> simp

/-- Witness for C2 amended: with a title and N = 1, M = 1 the count is
1 + 2, and without a title and N = 1, M = 0 it is 2. -/
theorem titled_page_count_witness :
    (pagesOf (buildStory true false 1 1)).length = 1 + 2 * 1 ∧
    (pagesOf (buildStory false false 1 0)).length = 0 + 2 * 1 := by
  constructor
  · exact titled_page_count true false 1 1 (by norm_num)
  · exact titled_page_count false false 1 0 (by norm_num)

/-! ## Image ordering: load_image_paths

load_image_paths (src lines 33-52) collects the directory entries
matching the raster extensions and sorts them with the key
numeric_key(path) = (int(first digit run of the stem), stem.lower())
when the stem contains a digit run, and (infinity, stem.lower())
otherwise, where the stem is the basename without its extension.
Filenames are modelled as their character lists (the directory prefix
stripped by os.path.basename plays no role); Python compares strings
by code point, modelled through Char.toNat.  Python sorted is a stable
comparison sort over this key order; we embed it as insertion sort on
the key order and prove the output is an ordered permutation.
-/

/-- Embeds os.path.splitext applied to the basename: the part before
the last dot, except that a name whose part before the last dot
consists only of dots (such as a bare .png) is kept whole. -/
def splitext_stem (name : List Char) : List Char :=
  let r := name.reverse
  if ('.' ∈ r) then
    let s := ((r.dropWhile (fun c => c ≠ '.')).drop 1).reverse
    if s.all (fun c => c = '.') then name else s
  else name

/-- The leftmost maximal digit run of a name, as re.search of one or
more digits finds it; none when the name has no digit. -/
def firstDigitRun : List Char → Option (List Char)
  | [] => none
  | c :: rest =>
      if c.isDigit then some ((c :: rest).takeWhile Char.isDigit)
      else firstDigitRun rest

/-- Decimal value of a digit run, as Python int() reads it. -/
def digitsToNat (ds : List Char) : ℕ :=
  ds.foldl (fun n c => 10 * n + (c.toNat - 48)) 0

/-- Embeds numeric_key (src lines 34-39): the pair of the numeric value
of the first digit run of the stem (none standing for the +infinity
used when no digit occurs) and the lowercased stem. -/
def numeric_key (path : List Char) : Option ℕ × List Char :=
  let name := splitext_stem path
  match firstDigitRun name with
  | some ds => (some (digitsToNat ds), name.map Char.toLower)
  | none => (none, name.map Char.toLower)

/-- Strict order on the numeric component, none being +infinity. -/
def numLTb : Option ℕ → Option ℕ → Bool
  | some a, some b => decide (a < b)
  | some _, none => true
  | none, _ => false

/-- Code-point lexicographic order on character lists, as Python
compares strings. -/
def charListLE : List Char → List Char → Bool
  | [], _ => true
  | _ :: _, [] => false
  | a :: as, b :: bs =>
      if a.toNat = b.toNat then charListLE as bs else decide (a.toNat < b.toNat)

/-- The non-strict tuple order on keys induced by Python tuple
comparison: strictly smaller numeric part, or equal numeric parts and
lexicographically ordered names. -/
def keyLE (k1 k2 : Option ℕ × List Char) : Bool :=
  numLTb k1.1 k2.1 || (decide (k1.1 = k2.1) && charListLE k1.2 k2.2)

/-- The order in which load_image_paths returns two paths. -/
def imgLE (p q : List Char) : Prop :=
  keyLE (numeric_key p) (numeric_key q) = true

instance : DecidableRel imgLE := fun p q => by
  unfold imgLE
  infer_instance

lemma charListLE_total : ∀ x y : List Char, charListLE x y = true ∨ charListLE y x = true := by
  intro x
  induction x with
  | nil => intro y; exact Or.inl rfl
  | cons a as ih =>
      intro y
      cases y with
      | nil => exact Or.inr rfl
      | cons b bs =>
          by_cases hab : a.toNat = b.toNat
          · rcases ih bs with h | h
            · exact Or.inl (by simp [charListLE, hab, h])
            · exact Or.inr (by simp [charListLE, hab.symm, h])
          · by_cases hlt : a.toNat < b.toNat
            · exact Or.inl (by simp [charListLE, hab, hlt])
            · refine Or.inr ?_
              have hba : b.toNat ≠ a.toNat := fun h => hab h.symm
              have : b.toNat < a.toNat := by omega
              simp [charListLE, hba, this]

lemma charListLE_trans : ∀ x y z : List Char,
    charListLE x y = true → charListLE y z = true → charListLE x z = true := by
  intro x
  induction x with
  | nil => intro y z _ _; rfl
  | cons a as ih =>
      intro y z hxy hyz
      cases y with
      | nil => simp [charListLE] at hxy
      | cons b bs =>
          cases z with
          | nil => simp [charListLE] at hyz
          | cons c cs =>
              simp only [charListLE] at hxy hyz ⊢
              by_cases hab : a.toNat = b.toNat <;> by_cases hbc : b.toNat = c.toNat
              · rw [if_pos hab] at hxy
                rw [if_pos hbc] at hyz
                rw [if_pos (hab.trans hbc)]
                exact ih bs cs hxy hyz
              · rw [if_pos hab] at hxy
                rw [if_neg hbc] at hyz
                have hbc2 : b.toNat < c.toNat := by simpa using hyz
                have hac : a.toNat ≠ c.toNat := by omega
                rw [if_neg hac]
                simp
                omega
              · rw [if_neg hab] at hxy
                rw [if_pos hbc] at hyz
                have hab2 : a.toNat < b.toNat := by simpa using hxy
                have hac : a.toNat ≠ c.toNat := by omega
                rw [if_neg hac]
                simp
                omega
              · rw [if_neg hab] at hxy
                rw [if_neg hbc] at hyz
                have hab2 : a.toNat < b.toNat := by simpa using hxy
                have hbc2 : b.toNat < c.toNat := by simpa using hyz
                have hac : a.toNat ≠ c.toNat := by omega
                rw [if_neg hac]
                simp
                omega

lemma keyLE_total (k1 k2 : Option ℕ × List Char) :
    keyLE k1 k2 = true ∨ keyLE k2 k1 = true := by
  obtain ⟨n1, s1⟩ := k1
  obtain ⟨n2, s2⟩ := k2
  simp only [keyLE, Bool.or_eq_true, Bool.and_eq_true, decide_eq_true_eq]
  cases n1 with
  | none =>
      cases n2 with
      | none =>
          rcases charListLE_total s1 s2 with h | h
          · exact Or.inl (Or.inr ⟨rfl, h⟩)
          · exact Or.inr (Or.inr ⟨rfl, h⟩)
      | some m => exact Or.inr (Or.inl rfl)
  | some n =>
      cases n2 with
      | none => exact Or.inl (Or.inl rfl)
      | some m =>
          by_cases hnm : n = m
          · subst hnm
            rcases charListLE_total s1 s2 with h | h
            · exact Or.inl (Or.inr ⟨rfl, h⟩)
            · exact Or.inr (Or.inr ⟨rfl, h⟩)
          · by_cases hlt : n < m
            · exact Or.inl (Or.inl (by simpa [numLTb] using hlt))
            · refine Or.inr (Or.inl ?_)
              simp only [numLTb, decide_eq_true_eq]
              omega

lemma keyLE_trans (k1 k2 k3 : Option ℕ × List Char) :
    keyLE k1 k2 = true → keyLE k2 k3 = true → keyLE k1 k3 = true := by
  obtain ⟨n1, s1⟩ := k1
  obtain ⟨n2, s2⟩ := k2
  obtain ⟨n3, s3⟩ := k3
  simp only [keyLE, Bool.or_eq_true, Bool.and_eq_true, decide_eq_true_eq]
  intro h12 h23
  cases n1 with
  | none =>
      cases n2 with
      | none =>
          rcases h12 with h | ⟨_, hs12⟩
          · simp [numLTb] at h
          · cases n3 with
            | none =>
                rcases h23 with h | ⟨_, hs23⟩
                · simp [numLTb] at h
                · exact Or.inr ⟨rfl, charListLE_trans s1 s2 s3 hs12 hs23⟩
            | some m3 =>
                rcases h23 with h | ⟨he, _⟩
                · simp [numLTb] at h
                · exact absurd he (by simp)
      | some m2 =>
          rcases h12 with h | ⟨he, _⟩
          · simp [numLTb] at h
          · exact absurd he (by simp)
  | some m1 =>
      cases n2 with
      | none =>
          cases n3 with
          | none => exact Or.inl (by simp [numLTb])
          | some m3 =>
              rcases h23 with h | ⟨he, _⟩
              · simp [numLTb] at h
              · exact absurd he (by simp)
      | some m2 =>
          rcases h12 with h | ⟨he, hs12⟩
          · have h1 : m1 < m2 := by simpa [numLTb] using h
            cases n3 with
            | none => exact Or.inl (by simp [numLTb])
            | some m3 =>
                rcases h23 with h | ⟨he, _⟩
                · have h2 : m2 < m3 := by simpa [numLTb] using h
                  exact Or.inl (by simp [numLTb]; omega)
                · have : m2 = m3 := by simpa using he
                  subst this
                  exact Or.inl (by simp [numLTb]; omega)
          · have : m1 = m2 := by simpa using he
            subst this
            cases n3 with
            | none => exact Or.inl (by simp [numLTb])
            | some m3 =>
                rcases h23 with h | ⟨he2, hs23⟩
                · have h2 : m1 < m3 := by simpa [numLTb] using h
                  exact Or.inl (by simp [numLTb]; omega)
                · have : m1 = m3 := by simpa using he2
                  subst this
                  exact Or.inr ⟨rfl, charListLE_trans s1 s2 s3 hs12 hs23⟩

instance : IsTotal (List Char) imgLE :=
  ⟨fun p q => keyLE_total (numeric_key p) (numeric_key q)⟩

instance : IsTrans (List Char) imgLE :=
  ⟨fun p q r => keyLE_trans (numeric_key p) (numeric_key q) (numeric_key r)⟩

/-- Embeds the sorted(paths, key=numeric_key) call of load_image_paths
(src line 46) as a comparison sort over the key order. -/
def sortImages (paths : List (List Char)) : List (List Char) :=
  List.insertionSort imgLE paths

/-- C4: load_image_paths orders images by the key (numeric value of
the first digit run, lowercased name), with digitless names sorting
after all numbered ones and lexicographically among themselves: the
output is a permutation of the input that is sorted for the key order,
a numbered name is never preceded by a digitless one, and the four
filenames img2.png, img10.png, imgA.png, img1.png resolve to the order
img1, img2, img10, imgA. -/
theorem image_order_correct :
    (∀ paths : List (List Char),
      (sortImages paths).Perm paths ∧ (sortImages paths).Sorted imgLE) ∧
    (∀ p q : List Char, (numeric_key p).1 = none → (numeric_key q).1 ≠ none →
      imgLE q p ∧ ¬ imgLE p q) ∧
    sortImages ["img2.png".toList, "img10.png".toList, "imgA.png".toList, "img1.png".toList] =
      ["img1.png".toList, "img2.png".toList, "img10.png".toList, "imgA.png".toList] := by
  refine ⟨?_, ?_, ?_⟩
  · intro paths
    exact ⟨List.perm_insertionSort imgLE paths, List.sorted_insertionSort imgLE paths⟩
  · intro p q hp hq
    obtain ⟨m, hm⟩ := Option.ne_none_iff_exists.mp hq
    constructor
    · simp [imgLE, keyLE, hp, ← hm, numLTb]
    · simp [imgLE, keyLE, hp, ← hm, numLTb]
  · decide

/-- Witness for C4: the theorem applied to the digitless name imgA.png
and the numbered name img2.png: the numbered one sorts strictly before
the digitless one. -/
theorem image_order_correct_witness :
    imgLE ("img2.png".toList) ("imgA.png".toList) ∧
    ¬ imgLE ("imgA.png".toList) ("img2.png".toList) :=
  image_order_correct.2.1 ("imgA.png".toList) ("img2.png".toList) (by decide) (by decide)

/-! ## Sentence and paragraph composition

split_into_sentences (src lines 28-30) strips the text and splits it
with the regular expression that matches a whitespace run preceded by
one of . ! ?, dropping empty parts.  build_inner_book (src lines
286-293) splits each page text on the literal separator between blank
lines (two newlines), strips the chunks, drops empty ones, joins each
chunk's sentences with the break string and joins the chunks with the
same break string.  Texts are modelled as character lists; the regex
scan is embedded as a left-to-right automaton whose skipping flag
records that the current position is inside the whitespace run of a
match (so further whitespace is consumed by the same match).
-/

def isSentPunct : Option Char → Bool
  | some p => p = '.' || p = '!' || p = '?'
  | none => false

/-- One pass of re.split on a whitespace run preceded by . ! or ?:
prev is the character just before the current position, skipping marks
that the scanner is inside the whitespace run of the current match. -/
def splitSentAux (skipping : Bool) (prev : Option Char) (acc : List Char) :
    List Char → List (List Char)
  | [] => [acc.reverse]
  | c :: rest =>
      if skipping && c.isWhitespace then splitSentAux true none acc rest
      else if c.isWhitespace && isSentPunct prev then
        acc.reverse :: splitSentAux true none [] rest
      else splitSentAux false (some c) (c :: acc) rest

/-- Embeds str.strip for the ASCII whitespace of this model. -/
def strip (l : List Char) : List Char :=
  ((l.dropWhile Char.isWhitespace).reverse.dropWhile Char.isWhitespace).reverse

/-- Embeds split_into_sentences (src lines 28-30). -/
def split_into_sentences (text : List Char) : List (List Char) :=
  (splitSentAux false none [] (strip text)).filter (fun s => !s.isEmpty)

/-- Scanner for str.split on two consecutive newlines: pending records
a read newline that may open a separator and has not been committed to
the current part yet. -/
def splitNl2Aux (pending : Bool) (acc : List Char) : List Char → List (List Char)
  | [] => [(if pending then '\n' :: acc else acc).reverse]
  | c :: rest =>
      if pending then
        if c = '\n' then acc.reverse :: splitNl2Aux false [] rest
        else splitNl2Aux false (c :: '\n' :: acc) rest
      else
        if c = '\n' then splitNl2Aux true acc rest
        else splitNl2Aux false (c :: acc) rest

/-- Embeds page_text.split of the two-newline separator (src line 286). -/
def split_nn (text : List Char) : List (List Char) := splitNl2Aux false [] text

/-- Embeds str.join: joinSep sep parts concatenates the parts with sep
between consecutive parts. -/
def joinSep (sep : List Char) : List (List Char) → List Char
  | [] => []
  | [p] => p
  | p :: q :: ps => p ++ sep ++ joinSep sep (q :: ps)

/-- The paragraph-internal break string of the composed block. -/
def br2 : List Char := "<br/><br/>".toList

/-- Embeds the composition of one page's rich-text block
(src lines 286-293): chunks are the stripped non-empty parts of the
blank-line split; each chunk's sentences are joined with br2 and the
chunks are joined with br2 as well. -/
def compose_page_html (page_text : List Char) : List Char :=
  let raw_chunks := ((split_nn page_text).map strip).filter (fun s => !s.isEmpty)
  let parts := raw_chunks.map (fun c => joinSep br2 (split_into_sentences c))
  joinSep br2 parts

/-! ### Composition lemmas -/

lemma splitNl2Aux_no_newline (p : List Char) :
    ∀ (acc rest : List Char), '\n' ∉ p →
      splitNl2Aux false acc (p ++ rest) = splitNl2Aux false (p.reverse ++ acc) rest := by
  induction p with
  | nil => intro acc rest _; simp
  | cons c cs ih =>
      intro acc rest hmem
      have hc : c ≠ '\n' := fun h => hmem (h ▸ List.mem_cons_self c cs)
      have hcs : '\n' ∉ cs := fun h => hmem (List.mem_cons_of_mem c h)
      simp only [List.cons_append, List.append_eq, splitNl2Aux, if_neg hc,
        Bool.false_eq_true, if_false]
      rw [ih (c :: acc) rest hcs]
      simp

lemma splitNl2Aux_sep (acc rest : List Char) :
    splitNl2Aux false acc ('\n' :: '\n' :: rest) = acc.reverse :: splitNl2Aux false [] rest := by
  simp [splitNl2Aux]

lemma split_nn_joinSep (paras : List (List Char)) (hne : paras ≠ [])
    (h : ∀ p ∈ paras, '\n' ∉ p) :
    split_nn (joinSep ['\n', '\n'] paras) = paras := by
  rw [split_nn]
  suffices hgen : ∀ ps : List (List Char), ps ≠ [] → (∀ p ∈ ps, '\n' ∉ p) →
      splitNl2Aux false [] (joinSep ['\n', '\n'] ps) = ps by
    exact hgen paras hne h
  intro ps
  induction ps with
  | nil => intro hc; exact absurd rfl hc
  | cons p qs ih =>
      intro _ hmem
      have hp : '\n' ∉ p := hmem p (List.mem_cons_self p qs)
      cases qs with
      | nil =>
          have : joinSep ['\n', '\n'] [p] = p := rfl
          rw [this]
          have := splitNl2Aux_no_newline p [] [] hp
          simpa [splitNl2Aux] using this
      | cons q rs =>
          have hjoin : joinSep ['\n', '\n'] (p :: q :: rs) =
              p ++ ('\n' :: '\n' :: joinSep ['\n', '\n'] (q :: rs)) := by
            simp [joinSep]
          rw [hjoin, splitNl2Aux_no_newline p _ _ hp, List.append_nil, splitNl2Aux_sep,
            ih (by simp) (fun r hr => hmem r (List.mem_cons_of_mem p hr))]
          simp

/-! ## Claim theorems for composition -/

/-- C9 counterexample: for the page text built from the two paragraphs
A. B! and C? D., the composed block joins the two paragraphs with
exactly the ten-character break that also joins the sentences, so no
strictly larger paragraph break exists: every break placed between the
two composed paragraphs in this output has length exactly br2.length
= 10. -/
theorem paragraph_break_counterexample :
    compose_page_html ("A. B!\n\nC? D.".toList) =
      ("A.<br/><br/>B!<br/><br/>C?<br/><br/>D.".toList) ∧
    ¬ ∃ sep : List Char, br2.length < sep.length ∧
        compose_page_html ("A. B!\n\nC? D.".toList) =
          ("A.<br/><br/>B!".toList) ++ sep ++ ("C?<br/><br/>D.".toList) := by
  have hmain : compose_page_html ("A. B!\n\nC? D.".toList) =
      ("A.<br/><br/>B!<br/><br/>C?<br/><br/>D.".toList) := by decide
  refine ⟨hmain, ?_⟩
  rintro ⟨sep, hlen, heq⟩
  rw [hmain] at heq
  have hlength := congrArg List.length heq
  have h1 : ("A.<br/><br/>B!<br/><br/>C?<br/><br/>D.".toList).length = 38 := rfl
  have h2 : ("A.<br/><br/>B!".toList).length = 14 := rfl
  have h3 : ("C?<br/><br/>D.".toList).length = 14 := rfl
  have h4 : br2.length = 10 := rfl
  rw [h1, List.length_append, List.length_append, h2, h3] at hlength
  omega

/-- C9 amended: the composed rich-text block splits the text on
blank-line boundaries into paragraphs and each paragraph into
sentences after . ! or ? followed by whitespace, then joins sentences
with the break br2 and joins paragraphs with that same break (not a
strictly larger one): for any non-empty list of newline-free, already
stripped, non-empty paragraph texts, composing their blank-line join
yields the br2-join of the per-paragraph br2-joined sentences. -/
theorem compose_page_html_spec (paras : List (List Char)) (hne : paras ≠ [])
    (h : ∀ p ∈ paras, '\n' ∉ p ∧ strip p = p ∧ p ≠ []) :
    compose_page_html (joinSep ['\n', '\n'] paras) =
      joinSep br2 (paras.map (fun p => joinSep br2 (split_into_sentences p))) := by
  rw [compose_page_html]
  rw [split_nn_joinSep paras hne (fun p hp => (h p hp).1)]
  have hstrip : paras.map strip = paras := by
    have hm : paras.map strip = paras.map id :=
      List.map_congr_left (fun p hp => (h p hp).2.1)
    simpa using hm
  rw [hstrip]
  have hfilter : paras.filter (fun s => !s.isEmpty) = paras := by
    apply List.filter_eq_self.mpr
    intro p hp
    have : p ≠ [] := (h p hp).2.2
    simpa [List.isEmpty_iff] using this
  rw [hfilter]

/-- Witness for C9 amended: the theorem applied to the two paragraphs
A. B! and C? D., whose blank-line join is the page text of the
counterexample; all side conditions are discharged by computation and
the resulting block is the br2-join of the four sentences. -/
theorem compose_page_html_spec_witness :
    compose_page_html (joinSep ['\n', '\n'] ["A. B!".toList, "C? D.".toList]) =
      joinSep br2 (["A. B!".toList, "C? D.".toList].map
        (fun p => joinSep br2 (split_into_sentences p))) :=
  compose_page_html_spec ["A. B!".toList, "C? D.".toList] (by simp) (by decide)

end BookGen
